import Mathlib

/-!
Shallow embedding of the LilyPond-like chord notation-to-MIDI engine of the
HarmonyLab repository.  Two implementations exist in the corpus:

* `src/lab/objects.py`, class `ExerciseLilyPond` (fail-fast, absolute octaves);
* `src/harmony/apps/lab/objects.py`, class `ExerciseLilyPond`
  (accumulate-and-continue, nearest-fifth relative octaves).

Both are embedded below; pure functions mirror the Python statement by
statement, mutable instance state (`self.errors`, `self.is_valid`) is threaded
explicitly, exceptions become `Except` values.
-/

namespace HarmonyLab

/-- Python whitespace class used by `str.strip`, `\s` in `re.split` and
`re.sub`: space, tab, newline, carriage return, vertical tab, form feed. -/
def isPySpace (c : Char) : Bool :=
  c = ' ' || c = '\t' || c = '\n' || c = '\r' || c = '\x0b' || c = '\x0c'

/-- Python `str.strip()`: drop leading and trailing whitespace. -/
def pyStrip (l : List Char) : List Char :=
  ((l.dropWhile isPySpace).reverse.dropWhile isPySpace).reverse

/-- Work loop for `re.split('\s+', s)`: split on maximal whitespace runs,
producing an empty piece at a boundary run (the engine only ever applies it
after stripping, except in the `harmony` variant which does not strip).
Matches Python: `re.split('\s+', "") == [""]`, `re.split('\s+', " ") == ["", ""]`,
`re.split('\s+', "a  b") == ["a", "b"]`. -/
def pySplitCore : List Char → List String
  | [] => [""]
  | c :: cs =>
    if isPySpace c then
      match cs with
      | c2 :: _ => if isPySpace c2 then pySplitCore cs else "" :: pySplitCore cs
      | [] => "" :: pySplitCore cs
    else
      match pySplitCore cs with
      | t :: ts => String.mk (c :: t.data) :: ts
      | [] => [String.mk [c]]

/-- Python `re.split('\s+', s)` over a character list. -/
def pySplit (l : List Char) : List String := pySplitCore l

/-- Fuel-indexed scan for `re.findall('<([^>]+)>', s)`: every step consumes at
least one character, so fuel `l.length` is never exhausted. -/
def findChordsF : Nat → List Char → List String
  | _, [] => []
  | Nat.succ fuel, c :: rest =>
    if c = '<' then
      let content := rest.takeWhile (fun ch => ch != '>')
      match rest.dropWhile (fun ch => ch != '>') with
      | _ :: rest2 =>
        if content.isEmpty then findChordsF fuel rest
        else String.mk content :: findChordsF fuel rest2
      | [] => findChordsF fuel rest
    else findChordsF fuel rest
  | 0, _ => []

/-- Python `re.findall('<([^>]+)>', s)`: the bracketed chord substrings, in
order of appearance; `<>` with empty content does not match. -/
def findChords (l : List Char) : List String := findChordsF l.length l

/-- Both implementations: `ExerciseLilyPond.parseChords`, i.e.
`re.findall('<([^>]+)>', lpstring.strip())`. -/
def parseChords (s : String) : List String := findChords (pyStrip s.data)

/-- The `'` character (LilyPond raise-octave mark), by code point to keep the
source free of quote-character literals. -/
def quoteChar : Char := Char.ofNat 39

/-- Fuel-indexed scan for `re.sub(r'\\xNote\s*', 'x', s)`: replace each
occurrence of the literal characters `\xNote` plus any following whitespace
with a single `x`. -/
def subXNoteF : Nat → List Char → List Char
  | _, [] => []
  | Nat.succ fuel, '\\' :: 'x' :: 'N' :: 'o' :: 't' :: 'e' :: rest =>
    'x' :: subXNoteF fuel (rest.dropWhile isPySpace)
  | Nat.succ fuel, c :: rest => c :: subXNoteF fuel rest
  | 0, l => l

/-- Python `re.sub(r'\\xNote\s*', 'x', s)` over a character list. -/
def subXNote (l : List Char) : List Char := subXNoteF l.length l

/-- Note-name constant list: `notes = [n[0] for n in note_tuples]`. -/
def noteLetters : List Char := ['c', 'd', 'e', 'f', 'g', 'a', 'b']

/-- Pitch-class dictionary `note_pitch`: c=0, d=2, e=4, f=5, g=7, a=9, b=11
(the fallback 0 is unreachable: lookups are guarded by `noteLetters`
membership, where Python would raise `KeyError`). -/
def notePitch (c : Char) : Int :=
  if c = 'c' then 0
  else if c = 'd' then 2
  else if c = 'e' then 4
  else if c = 'f' then 5
  else if c = 'g' then 7
  else if c = 'a' then 9
  else if c = 'b' then 11
  else 0

/-- Python `int(o)` on a single digit character. -/
def digitVal (c : Char) : Int := (c.toNat : Int) - 48

/-- Character class of `re.findall('(\'|,|\d)', ...)`: octave-changing marks
and explicit octave digits. -/
def octCharB (c : Char) : Bool := c = quoteChar || c = ',' || c.isDigit

/-- Character class of `re.findall('(s|f)', ...)`: accidental marks. -/
def accCharB (c : Char) : Bool := c = 's' || c = 'f'

/-- Alphabet allowed after the note letter, i.e. the pattern
`'|,|s|f|\d` of the `check_rest` substitution. -/
def allowedCharB (c : Char) : Bool := octCharB c || accCharB c

/-- Error message of the `missing or invalid note name` branch (both
implementations use the same format string). -/
def invalidNoteMsg (entry : String) (chord : String) : String :=
  "Pitch [" ++ entry ++ "] in chord [" ++ chord ++
    "] is invalid: missing or invalid note name"

/-- Error message of the `unrecognized symbols` branch. -/
def unrecognizedMsg (entry : String) (chord : String) (residue : String) : String :=
  "Pitch entry [" ++ entry ++ "] in chord [" ++ chord ++
    "] contains unrecognized symbols: " ++ residue

/-- Exceptions that can escape one pitch-entry parse in `src/lab`:
`ExerciseLilyPondError` (carrying the message appended to `self.errors`), or
the uncaught `IndexError` from `tokens[0]` on an empty entry. -/
inductive PErr where
  | lily (msg : String)
  | index
deriving DecidableEq, Repr

/-- Loop `for o in octaves` of `src/lab`: raise marks and lower marks adjust
`octave_change`; a digit assigns `octave` (and nothing else). -/
def octScan (startOct : Int) (octs : List Char) : Int × Int :=
  octs.foldl
    (fun p c =>
      if c = quoteChar then (p.1, p.2 + 1)
      else if c = ',' then (p.1, p.2 - 1)
      else (digitVal c, p.2))
    (startOct, 0)

/-- Loop `for acc in accidentals`: each sharp adds one, each flat subtracts
one from `pitch_change`. -/
def accScan (accs : List Char) : Int :=
  accs.foldl (fun p c => if c = 's' then p + 1 else if c = 'f' then p - 1 else p) 0

/-- One iteration of the `for idx, pitch_entry in enumerate(pitch_entries)`
loop of `ExerciseLilyPond.parseChord` in `src/lab/objects.py` (lines 252-304):
hidden-marker strip, note-letter check, residue check, octave marks,
accidentals, and the final `(octave + octave_change) * 12 + pitch + change`
computation.  `chordNorm` is the normalized chord string used in error
messages. -/
def parseEntryE (chordNorm : String) (startOct : Int) (entry : String) :
    Except PErr (Bool × Int) :=
  match entry.data with
  | [] => .error .index
  | t0 :: rest0 =>
    let hidden : Bool := t0 = 'x'
    let tokens : List Char := if t0 = 'x' then rest0 else t0 :: rest0
    match tokens with
    | [] => .error (.lily (invalidNoteMsg entry chordNorm))
    | n :: ts =>
      if n ∈ noteLetters then
        let residue := ts.filter (fun c => !allowedCharB c)
        if residue.isEmpty then
          let oc := octScan startOct (ts.filter octCharB)
          let pc := accScan (ts.filter accCharB)
          .ok (hidden, (oc.1 + oc.2) * 12 + notePitch n + pc)
        else .error (.lily (unrecognizedMsg entry chordNorm (String.mk residue)))
      else .error (.lily (invalidNoteMsg entry chordNorm))

/-- The mutable instance state of `ExerciseLilyPond`: `self.errors` and
`self.is_valid`. -/
structure LPState where
  errors : List String
  is_valid : Bool
deriving DecidableEq, Repr

/-- Effect of parsing one pitch entry on the instance state: an
`ExerciseLilyPondError` appends its message and clears validity, everything
else leaves the state untouched. -/
def entryStep (chordNorm : String) (startOct : Int) (st : LPState) (entry : String) :
    LPState :=
  match parseEntryE chordNorm startOct entry with
  | .error (.lily m) => ⟨st.errors ++ [m], false⟩
  | _ => st

/-- Per-chord output `midi_chord = {"visible": [], "hidden": []}`. -/
structure MidiChord where
  visible : List Int
  hidden : List Int
deriving DecidableEq, Repr

/-- Append a resolved pitch to the entry's group
(`midi_entry.append(midi_pitch)`). -/
def addPitch (mc : MidiChord) (hidden : Bool) (p : Int) : MidiChord :=
  if hidden then { mc with hidden := mc.hidden ++ [p] }
  else { mc with visible := mc.visible ++ [p] }

/-- Entry loop of `src/lab`'s `parseChord`: the first failing entry mutates
the state and raises, aborting the chord. -/
def chordLoop (chordNorm : String) (startOct : Int) :
    List String → LPState → MidiChord → LPState × Except PErr MidiChord
  | [], st, mc => (st, .ok mc)
  | e :: es, st, mc =>
    match parseEntryE chordNorm startOct e with
    | .ok hp =>
      chordLoop chordNorm startOct es (entryStep chordNorm startOct st e)
        (addPitch mc hp.1 hp.2)
    | .error ex => (entryStep chordNorm startOct st e, .error ex)

/-- Chord-string normalization of `src/lab`:
`re.sub(r'\\xNote\s*', 'x', chordstring).lower().strip()`. -/
def normalizeChord (cs : String) : List Char :=
  pyStrip ((subXNote cs.data).map Char.toLower)

/-- `ExerciseLilyPond.parseChord` of `src/lab/objects.py` with the instance
state made explicit. -/
def parseChordSt (cs : String) (startOct : Int) (st : LPState) :
    LPState × Except PErr MidiChord :=
  chordLoop (String.mk (normalizeChord cs)) startOct (pySplit (normalizeChord cs))
    st ⟨[], []⟩

/-- The fields of a constructed `ExerciseLilyPond` object: `self.midi`,
`self.errors`, `self.is_valid`. -/
structure LilyResult where
  midi : List MidiChord
  errors : List String
  is_valid : Bool
deriving DecidableEq, Repr

/-- Loop of `src/lab`'s `parse`: each chord is parsed with `octave = 4`; an
`ExerciseLilyPondError` is caught and yields `[]`, while an `IndexError`
escapes. -/
def parseLoop : List String → LPState → List MidiChord →
    LPState × Except Unit (List MidiChord)
  | [], st, acc => (st, .ok acc)
  | c :: cs, st, acc =>
    match parseChordSt c 4 st with
    | (st1, .ok mc) => parseLoop cs st1 (acc ++ [mc])
    | (st1, .error (.lily _)) => (st1, .ok [])
    | (st1, .error .index) => (st1, .error ())

/-- Construction of `ExerciseLilyPond(lilypondString)` in `src/lab`:
`.error ()` models the uncaught `IndexError` escaping `__init__`. -/
def mkLily (s : String) : Except Unit LilyResult :=
  match parseLoop (parseChords s) ⟨[], true⟩ [] with
  | (st, .ok midi) => .ok ⟨midi, st.errors, st.is_valid⟩
  | (_, .error _) => .error ()

namespace Harmony

/-- Python `notes.index(c)` for the seven note letters (the fallback 0 is
unreachable: both arguments are guarded by `noteLetters` membership). -/
def noteIndex (c : Char) : Int :=
  if c = 'c' then 0
  else if c = 'd' then 1
  else if c = 'e' then 2
  else if c = 'f' then 3
  else if c = 'g' then 4
  else if c = 'a' then 5
  else if c = 'b' then 6
  else 0

/-- Nearest-fifth inference of `src/harmony/apps/lab/objects.py` (lines
223-237): the letter distance to the previous note, widened away from zero,
shifts the octave by one when its magnitude exceeds five. -/
def distShift (prev cur : Char) : Int :=
  let d0 := noteIndex prev - noteIndex cur
  let d := if d0 < 0 then d0 - 1 else d0 + 1
  if 5 < d.natAbs then (if d < 0 then -1 else 1) else 0

/-- Octave-mark loop of the `harmony` variant: raise and lower marks adjust
`octave_change`; a digit sets `octave_change = 0` and breaks (the local
`octave = int(o)` assignment is dead, being overwritten by
`octave = saved_octaves[0] + octave_change` right after the loop). -/
def octLoop (ch : Int) : List Char → Int
  | [] => ch
  | c :: cs =>
    if c = quoteChar then octLoop (ch + 1) cs
    else if c = ',' then octLoop (ch - 1) cs
    else 0

/-- Mutable variables of the `harmony` `parseChord` entry loop:
`saved_octaves`, `previous_note`, `midi_chord`, and the instance state. -/
structure HChordState where
  savedOctaves : List Int
  prev : Option Char
  mc : MidiChord
  st : LPState
deriving Repr

/-- Entry loop of the `harmony` `parseChord`: an entry error appends a
message, clears validity and `break`s (keeping the partial chord); an empty
entry raises an uncaught `IndexError` at `tokens[0]`. -/
def hEntryLoop (chordNorm : String) : List String → HChordState →
    Except Unit HChordState
  | [], s => .ok s
  | e :: es, s =>
    match e.data with
    | [] => .error ()
    | t0 :: rest0 =>
      let hidden : Bool := t0 = 'x'
      let tokens : List Char := if t0 = 'x' then rest0 else t0 :: rest0
      match tokens with
      | [] => .ok { s with st := ⟨s.st.errors ++ [invalidNoteMsg e chordNorm], false⟩ }
      | n :: ts =>
        if n ∈ noteLetters then
          let residue := ts.filter (fun c => !allowedCharB c)
          if residue.isEmpty then
            let base :=
              match s.prev with
              | none => 0
              | some pn => distShift pn n
            let octaveChange := octLoop base (ts.filter octCharB)
            let pc := accScan (ts.filter accCharB)
            let octave := s.savedOctaves.headD 0 + octaveChange
            hEntryLoop chordNorm es
              { savedOctaves := s.savedOctaves ++ [octave]
                prev := some n
                mc := addPitch s.mc hidden (octave * 12 + notePitch n + pc)
                st := s.st }
          else
            .ok { s with
                  st := ⟨s.st.errors ++
                    [unrecognizedMsg e chordNorm (String.mk residue)], false⟩ }
        else .ok { s with st := ⟨s.st.errors ++ [invalidNoteMsg e chordNorm], false⟩ }

/-- Chord-string normalization of the `harmony` variant:
`re.sub(r'\\xNote\s*', 'x', chordstring).lower()` — no strip. -/
def normalizeChordH (cs : String) : List Char :=
  (subXNote cs.data).map Char.toLower

/-- `ExerciseLilyPond.parseChord` of `src/harmony/apps/lab/objects.py`:
returns the chord, the octave handed to the next chord
(`saved_octaves[1]` when an entry was parsed, else `saved_octaves[0]`),
and the updated instance state. -/
def parseChordH (cs : String) (startOct : Int) (st : LPState) :
    Except Unit (MidiChord × Int × LPState) :=
  match hEntryLoop (String.mk (normalizeChordH cs)) (pySplit (normalizeChordH cs))
      ⟨[startOct], none, ⟨[], []⟩, st⟩ with
  | .error () => .error ()
  | .ok s =>
    let retOct :=
      match s.savedOctaves with
      | [o] => o
      | _ :: o2 :: _ => o2
      | [] => 0
    .ok (s.mc, retOct, s.st)

/-- Loop of the `harmony` `parse`: the octave returned by each chord is
threaded into the next one, and errors accumulate without aborting. -/
def parseLoopH : List String → Int → LPState → List MidiChord →
    Except Unit (List MidiChord × LPState)
  | [], _, st, acc => .ok (acc, st)
  | c :: cs, oct, st, acc =>
    match parseChordH c oct st with
    | .error () => .error ()
    | .ok (mc, oct1, st1) => parseLoopH cs oct1 st1 (acc ++ [mc])

/-- Construction of `ExerciseLilyPond(lilypondString)` in
`src/harmony/apps/lab`. -/
def mkLilyH (s : String) : Except Unit LilyResult :=
  match parseLoopH (parseChords s) 4 ⟨[], true⟩ [] with
  | .ok (midi, st) => .ok ⟨midi, st.errors, st.is_valid⟩
  | .error () => .error ()

end Harmony

/-! ### Derived descriptions of the octave and accidental scans -/

/-- Net octave shift contributed by raise and lower marks: +1 per `'`,
-1 per `,`, 0 for anything else. -/
def netUpDown : List Char → Int
  | [] => 0
  | c :: cs => (if c = quoteChar then 1 else if c = ',' then (-1 : Int) else 0) + netUpDown cs

/-- Base octave after the `for o in octaves` loop of `src/lab`: the value of
the last explicit digit, or the default `b` when there is none; raise and
lower marks do not touch it. -/
def lastDigitD (b : Int) : List Char → Int
  | [] => b
  | c :: cs => if c.isDigit then lastDigitD (digitVal c) cs else lastDigitD b cs

/-- Value of the `octave` variable after `src/lab`'s octave loop: raise and
lower marks keep it, anything else (a digit, in the guarded uses) overwrites
it. -/
def lastOct (b : Int) : List Char → Int
  | [] => b
  | c :: cs => if c = quoteChar || c = ',' then lastOct b cs else lastOct (digitVal c) cs

/-- The hidden-marker strip at the head of an entry
(`if tokens[0] == hidden_note_symbol: tokens = tokens[1:]`). -/
def stripHidden (l : List Char) : List Char :=
  match l with
  | [] => []
  | c :: t => if c = 'x' then t else c :: t

/-- Whether an entry fails the note-letter check of the parser: after the
hidden-marker strip, the entry is empty or does not start with one of the
seven note letters. -/
def invalidLetterB (l : List Char) : Bool :=
  match stripHidden l with
  | [] => true
  | c :: _ => !(decide (c ∈ noteLetters))

theorem octScan_foldl (octs : List Char) :
    ∀ b ch : Int,
      octs.foldl
        (fun p c =>
          if c = quoteChar then (p.1, p.2 + 1)
          else if c = ',' then (p.1, p.2 - 1)
          else (digitVal c, p.2))
        (b, ch) = (lastOct b octs, ch + netUpDown octs) := by
  induction octs with
  | nil => intro b ch; simp [lastOct, netUpDown]
  | cons c cs ih =>
    intro b ch
    simp only [List.foldl_cons]
    by_cases h1 : c = quoteChar
    · subst h1
      rw [if_pos rfl, ih]
      simp [lastOct, netUpDown, Prod.ext_iff]
      omega
    · by_cases h2 : c = ','
      · subst h2
        rw [if_neg h1, if_pos rfl, ih]
        simp [lastOct, netUpDown, Prod.ext_iff, h1]
        omega
      · rw [if_neg h1, if_neg h2, ih]
        simp [lastOct, netUpDown, Prod.ext_iff, h1, h2]

theorem octScan_eq (b : Int) (octs : List Char) :
    octScan b octs = (lastOct b octs, netUpDown octs) := by
  simpa using octScan_foldl octs b 0

theorem accScan_foldl (l : List Char) :
    ∀ a : Int,
      l.foldl (fun p c => if c = 's' then p + 1 else if c = 'f' then p - 1 else p) a =
        a + l.count 's' - l.count 'f' := by
  induction l with
  | nil => intro a; simp
  | cons c cs ih =>
    intro a
    simp only [List.foldl_cons]
    by_cases h1 : c = 's'
    · subst h1
      rw [if_pos rfl, ih]
      simp [List.count_cons]
      omega
    · by_cases h2 : c = 'f'
      · subst h2
        rw [if_neg h1, if_pos rfl, ih]
        simp [List.count_cons]
        omega
      · rw [if_neg h1, if_neg h2, ih]
        simp [List.count_cons, h1, h2]

theorem accScan_eq (l : List Char) :
    accScan l = (l.count 's' : Int) - l.count 'f' := by
  simpa using accScan_foldl l 0

theorem netUpDown_filter (l : List Char) :
    netUpDown (l.filter octCharB) = netUpDown l := by
  induction l with
  | nil => rfl
  | cons c cs ih =>
    by_cases h : octCharB c = true
    · simp [List.filter_cons, h, netUpDown, ih]
    · have h1 : ¬(c = quoteChar) := by
        rintro rfl; simp [octCharB] at h
      have h2 : ¬(c = ',') := by
        rintro rfl; simp [octCharB] at h
      simp [List.filter_cons, h, netUpDown, ih, h1, h2]

theorem lastOct_filter (l : List Char) :
    ∀ b : Int, lastOct b (l.filter octCharB) = lastDigitD b l := by
  induction l with
  | nil => intro b; rfl
  | cons c cs ih =>
    intro b
    by_cases hd : c.isDigit = true
    · have hq : ¬(c = quoteChar) := by rintro rfl; exact absurd hd (by decide)
      have hc : ¬(c = ',') := by rintro rfl; exact absurd hd (by decide)
      have ho : octCharB c = true := by simp [octCharB, hd]
      have hko : ¬((c = quoteChar || c = ',') = true) := by simp [hq, hc]
      simp [List.filter_cons, ho, lastOct, hko, lastDigitD, hd, ih]
    · by_cases ho : octCharB c = true
      · have hqc : c = quoteChar ∨ c = ',' := by
          simp only [octCharB, Bool.or_eq_true, decide_eq_true_eq] at ho
          rcases ho with (h | h) | h
          · exact Or.inl h
          · exact Or.inr h
          · exact absurd h hd
        have hko : (c = quoteChar || c = ',') = true := by
          rcases hqc with h | h <;> simp [h]
        simp [List.filter_cons, ho, lastOct, hko, lastDigitD, hd, ih]
      · simp [List.filter_cons, ho, lastDigitD, hd, ih]

theorem count_filter_acc (l : List Char) (c : Char) (hc : accCharB c = true) :
    (l.filter accCharB).count c = l.count c :=
  List.count_filter hc

theorem netUpDown_append (l1 l2 : List Char) :
    netUpDown (l1 ++ l2) = netUpDown l1 + netUpDown l2 := by
  induction l1 with
  | nil => simp [netUpDown]
  | cons c cs ih => simp [netUpDown, ih]; ring

theorem lastDigitD_append_nondigit (l : List Char) (c : Char) (hc : c.isDigit = false) :
    ∀ b : Int, lastDigitD b (l ++ [c]) = lastDigitD b l := by
  induction l with
  | nil => intro b; simp [lastDigitD, hc]
  | cons d ds ih =>
    intro b
    by_cases hd : d.isDigit = true <;> simp [lastDigitD, hd, ih]

theorem lastDigitD_of_digit (l : List Char) :
    ∀ b b' : Int, (∃ d ∈ l, d.isDigit = true) →
      lastDigitD b l = lastDigitD b' l := by
  induction l with
  | nil => rintro b b' ⟨d, hd, _⟩; exact absurd hd (List.not_mem_nil d)
  | cons c cs ih =>
    rintro b b' ⟨d, hd, hdig⟩
    by_cases hc : c.isDigit = true
    · simp [lastDigitD, hc]
    · rcases List.mem_cons.mp hd with rfl | hd
      · exact absurd hdig hc
      · simp only [lastDigitD, if_neg hc]
        exact ih b b' ⟨d, hd, hdig⟩

/-- Characterization of one visible pitch entry of `src/lab`: for a valid
note letter followed by marks drawn from the octave/accidental alphabet, the
resolved pitch is `(base + ups - downs) * 12 + pitch_class + sharps - flats`,
where the base octave is the last explicit digit if any, else the start
octave. -/
theorem parseEntryE_char (cn : String) (so : Int) (letter : Char) (marks : List Char)
    (hl : letter ∈ noteLetters) (hm : ∀ c ∈ marks, allowedCharB c = true) :
    parseEntryE cn so (String.mk (letter :: marks)) =
      .ok (false,
        (lastDigitD so marks + netUpDown marks) * 12 + notePitch letter +
          ((marks.count 's' : Int) - (marks.count 'f' : Int))) := by
  have hx : letter ≠ 'x' := by rintro rfl; exact absurd hl (by decide)
  have hres : marks.filter (fun c => !allowedCharB c) = [] :=
    List.filter_eq_nil_iff.mpr (by intro a ha; simp [hm a ha])
  simp only [parseEntryE, String.mk, hres, if_neg hx, if_pos hl, List.isEmpty_nil,
    if_pos rfl, octScan, accScan, octScan_foldl, accScan_foldl, decide_eq_false hx]
  rw [lastOct_filter, netUpDown_filter,
    count_filter_acc _ _ (by decide), count_filter_acc _ _ (by decide)]
  simp

theorem entryStep_ok {cn : String} {so : Int} {e : String} {v : Bool × Int}
    (h : parseEntryE cn so e = .ok v) (st : LPState) : entryStep cn so st e = st := by
  simp [entryStep, h]

theorem chordLoop_ok {cn : String} {so : Int} :
    ∀ (es : List String) (st : LPState) (mc : MidiChord) {st' : LPState} {mc' : MidiChord},
      chordLoop cn so es st mc = (st', .ok mc') →
      st' = st ∧ ∀ e ∈ es, ∃ v, parseEntryE cn so e = .ok v := by
  intro es
  induction es with
  | nil =>
    intro st mc st' mc' h
    simp only [chordLoop, Prod.mk.injEq] at h
    exact ⟨h.1.symm, by simp⟩
  | cons e es ih =>
    intro st mc st' mc' h
    simp only [chordLoop] at h
    split at h
    · next hp hv =>
      rw [entryStep_ok hv] at h
      obtain ⟨h1, h2⟩ := ih st _ h
      refine ⟨h1, ?_⟩
      intro x hx
      rcases List.mem_cons.mp hx with rfl | hx
      · exact ⟨hp, hv⟩
      · exact h2 x hx
    · next ex hv =>
      simp only [Prod.mk.injEq] at h
      exact absurd h.2 (by simp)

theorem chordLoop_err {cn : String} {so : Int} :
    ∀ (es : List String) (st : LPState) (mc : MidiChord) {st' : LPState} {ex : PErr},
      chordLoop cn so es st mc = (st', .error ex) →
      (∃ m, ex = .lily m ∧ st' = ⟨st.errors ++ [m], false⟩) ∨
        (ex = .index ∧ st' = st) := by
  intro es
  induction es with
  | nil =>
    intro st mc st' ex h
    simp only [chordLoop, Prod.mk.injEq] at h
    exact absurd h.2 (by simp)
  | cons e es ih =>
    intro st mc st' ex h
    simp only [chordLoop] at h
    split at h
    · next hp hv =>
      rw [entryStep_ok hv] at h
      exact ih st _ h
    · next ex2 hv =>
      simp only [Prod.mk.injEq] at h
      obtain ⟨h1, h2⟩ := h
      injection h2 with h2
      subst h2
      cases ex2 with
      | lily m =>
        simp only [entryStep, hv] at h1
        exact Or.inl ⟨m, rfl, h1.symm⟩
      | index =>
        simp only [entryStep, hv] at h1
        exact Or.inr ⟨rfl, h1.symm⟩

theorem parseLoop_ok :
    ∀ (cs : List String) (st : LPState) (acc : List MidiChord) {st' : LPState}
      {midi : List MidiChord},
      parseLoop cs st acc = (st', .ok midi) →
      (st' = st ∧ ∀ c ∈ cs, ∀ e ∈ pySplit (normalizeChord c),
          ∃ v, parseEntryE (String.mk (normalizeChord c)) 4 e = .ok v) ∨
        (st'.is_valid = false ∧ st'.errors ≠ [] ∧ midi = []) := by
  intro cs
  induction cs with
  | nil =>
    intro st acc st' midi h
    simp only [parseLoop, Prod.mk.injEq] at h
    exact Or.inl ⟨h.1.symm, by simp⟩
  | cons c cs ih =>
    intro st acc st' midi h
    simp only [parseLoop] at h
    split at h
    · next st1 mc hq =>
      obtain ⟨hst1, hents⟩ := chordLoop_ok _ _ _ hq
      subst hst1
      rcases ih _ _ h with ⟨h1, h2⟩ | hr
      · refine Or.inl ⟨h1, ?_⟩
        intro x hx
        rcases List.mem_cons.mp hx with rfl | hx
        · exact hents
        · exact h2 x hx
      · exact Or.inr hr
    · next st1 hq =>
      rcases chordLoop_err _ _ _ hq with ⟨m, _, hst1⟩ | ⟨hix, _⟩
      · subst hst1
        simp only [Prod.mk.injEq] at h
        obtain ⟨h1, h2⟩ := h
        injection h2 with h2
        subst h1
        exact Or.inr ⟨rfl, by simp, h2.symm⟩
      · exact absurd hix (by rintro ⟨⟩)
    · next st1 hq =>
      simp only [Prod.mk.injEq] at h
      exact absurd h.2 (by simp)

theorem invalidLetterB_cons_strip {l : List Char} {c : Char} {t : List Char}
    (h : stripHidden l = c :: t) :
    invalidLetterB l = !(decide (c ∈ noteLetters)) := by
  simp [invalidLetterB, h]

theorem invalidLetter_not_ok {cn : String} {so : Int} {e : String}
    (h : invalidLetterB e.data = true) (v : Bool × Int) :
    parseEntryE cn so e ≠ .ok v := by
  intro hv
  simp only [parseEntryE] at hv
  rcases hdata : e.data with _ | ⟨t0, rest⟩
  · rw [hdata] at hv
    simp at hv
  · rw [hdata] at hv
    by_cases hx : t0 = 'x'
    · subst hx
      rcases rest with _ | ⟨n, ts⟩
      · simp at hv
      · have hs : stripHidden e.data = n :: ts := by simp [stripHidden, hdata]
        rw [invalidLetterB_cons_strip hs] at h
        have hn : ¬(n ∈ noteLetters) := by simpa using h
        simp [hn] at hv
    · have hs : stripHidden e.data = t0 :: rest := by simp [stripHidden, hdata, hx]
      rw [invalidLetterB_cons_strip hs] at h
      have hn : ¬(t0 ∈ noteLetters) := by simpa using h
      simp only [if_neg hx, if_neg hn] at hv
      simp at hv

theorem addPitch_length (mc : MidiChord) (h : Bool) (p : Int) :
    (addPitch mc h p).visible.length + (addPitch mc h p).hidden.length =
      mc.visible.length + mc.hidden.length + 1 := by
  cases h <;> simp [addPitch] <;> omega

theorem chordLoop_lengths {cn : String} {so : Int} :
    ∀ (es : List String) (st : LPState) (mc : MidiChord) {st' : LPState} {mc' : MidiChord},
      chordLoop cn so es st mc = (st', .ok mc') →
      mc'.visible.length + mc'.hidden.length =
        mc.visible.length + mc.hidden.length + es.length := by
  intro es
  induction es with
  | nil =>
    intro st mc st' mc' h
    simp only [chordLoop, Prod.mk.injEq] at h
    obtain ⟨_, h2⟩ := h
    injection h2 with h2
    subst h2
    simp
  | cons e es ih =>
    intro st mc st' mc' h
    simp only [chordLoop] at h
    split at h
    · next hp hv =>
      have := ih _ _ h
      rw [this, addPitch_length]
      simp
      omega
    · next ex hv =>
      simp only [Prod.mk.injEq] at h
      exact absurd h.2 (by simp)

/-! ### The claims -/

/-- C1: the claim says parsing never raises for malformed notation and in
particular a chord of pure whitespace yields an invalid result with errors.
The code instead lets an `IndexError` (from `tokens[0]` on the empty entry
produced by the all-whitespace chord content) escape the constructor: this
theorem evaluates the engine at the failing input `"< >"` and shows the
exception propagating, with no parse result at all. -/
theorem whitespace_chord_raises_index_error : mkLily "< >" = .error () := rfl

/-- C2 counterexample: the claim says an explicit digit sets the target
octave outright, overriding earlier raise marks, so that `c'5` resolves to
octave 5 (pitch 60).  In `src/lab` the digit only replaces the base while
`octave_change` from the raise mark is still added, giving pitch 72; in
`src/harmony` the digit is discarded entirely, giving pitch 48.  Neither is
60. -/
theorem digit_override_cex :
    mkLily "<c'5>" = .ok ⟨[⟨[72], []⟩], [], true⟩ ∧
    Harmony.mkLilyH "<c'5>" = .ok ⟨[⟨[48], []⟩], [], true⟩ ∧
    (72 : Int) ≠ 60 ∧ (48 : Int) ≠ 60 :=
  ⟨rfl, rfl, by decide, by decide⟩

/-- C2 amended: in `src/lab` an explicit digit replaces the base octave
(the last digit winning, with the start octave irrelevant), but raise and
lower marks anywhere in the entry still adjust the result by one octave
each; `c'5` therefore resolves to octave 6 (pitch 72), not 5. -/
theorem digit_sets_base_marks_still_apply :
    ∀ (cn : String) (so so' : Int) (letter : Char) (marks : List Char),
      letter ∈ noteLetters → (∀ c ∈ marks, allowedCharB c = true) →
      (∃ d ∈ marks, d.isDigit = true) →
      parseEntryE cn so (String.mk (letter :: marks)) =
        .ok (false,
          (lastDigitD 0 marks + netUpDown marks) * 12 + notePitch letter +
            ((marks.count 's' : Int) - (marks.count 'f' : Int))) ∧
      parseEntryE cn so (String.mk (letter :: marks)) =
        parseEntryE cn so' (String.mk (letter :: marks)) := by
  intro cn so so' letter marks hl hm hd
  have h1 := parseEntryE_char cn so letter marks hl hm
  have h2 := parseEntryE_char cn so' letter marks hl hm
  rw [lastDigitD_of_digit marks so 0 hd] at h1
  rw [lastDigitD_of_digit marks so' 0 hd] at h2
  exact ⟨h1, h1.trans h2.symm⟩

/-- Witness for the amended C2 at the concrete entry `c'5`. -/
theorem digit_sets_base_marks_still_apply_witness :
    parseEntryE "c'5" 4 (String.mk ('c' :: [quoteChar, '5'])) =
      .ok (false,
        (lastDigitD 0 [quoteChar, '5'] + netUpDown [quoteChar, '5']) * 12 + notePitch 'c' +
          (([quoteChar, '5'].count 's' : Int) - ([quoteChar, '5'].count 'f' : Int))) ∧
    parseEntryE "c'5" 4 (String.mk ('c' :: [quoteChar, '5'])) =
      parseEntryE "c'5" 9 (String.mk ('c' :: [quoteChar, '5'])) :=
  digit_sets_base_marks_still_apply "c'5" 4 9 'c' [quoteChar, '5'] (by decide) (by decide)
    ⟨'5', by decide, by decide⟩

/-- C3 counterexample: the claim says `<x c>` yields one hidden and one
visible entry — but the lone `x` strips to an empty token and is an
invalid-note error, so `<x c>` parses to no chords at all; and the claim
that no pitch appears in both sequences fails on `<c xc>`, where 48 is in
both the visible and the hidden sequence of the same chord. -/
theorem hidden_visible_cex :
    mkLily "<x c>" =
      .ok ⟨[], ["Pitch [x] in chord [x c] is invalid: missing or invalid note name"], false⟩ ∧
    mkLily "<c xc>" = .ok ⟨[⟨[48], [48]⟩], [], true⟩ ∧
    (48 : Int) ∈ MidiChord.visible ⟨[48], [48]⟩ ∧
    (48 : Int) ∈ MidiChord.hidden ⟨[48], [48]⟩ :=
  ⟨rfl, rfl, by simp, by simp⟩

/-- C3 amended: the hidden marker must directly prefix the note letter, so
it is `<xc c>` that yields one hidden and one visible entry from the same
chord; and each pitch entry contributes its resolved pitch to exactly one of
the two sequences (the two lengths always sum to the number of entries),
though equal pitch values may appear in both via different entries. -/
theorem hidden_visible_routing :
    mkLily "<xc c>" = .ok ⟨[⟨[48], [48]⟩], [], true⟩ ∧
    ∀ (cn : String) (so : Int) (es : List String) (st : LPState) (mc : MidiChord)
      (st' : LPState) (mc' : MidiChord),
      chordLoop cn so es st mc = (st', .ok mc') →
      mc'.visible.length + mc'.hidden.length =
        mc.visible.length + mc.hidden.length + es.length :=
  ⟨rfl, fun _ _ es st mc _ _ h => chordLoop_lengths es st mc h⟩

/-- Witness for the amended C3 at the concrete chord `xc c`. -/
theorem hidden_visible_routing_witness :
    (MidiChord.mk [48] [48]).visible.length + (MidiChord.mk [48] [48]).hidden.length =
      (MidiChord.mk [] []).visible.length + (MidiChord.mk [] []).hidden.length +
        (["xc", "c"] : List String).length :=
  hidden_visible_routing.2 "xc c" 4 ["xc", "c"] ⟨[], true⟩ ⟨[], []⟩ ⟨[], true⟩
    ⟨[48], [48]⟩ rfl

/-- C4: a notation string with an entry whose note letter is missing or
invalid (such as `<z>`) gives `is_valid = false`, a non-empty error
sequence, and — under the fail-fast policy of `src/lab` — an empty chord
sequence, whenever a parse result is produced at all. -/
theorem invalid_letter_fail_fast :
    mkLily "<z>" =
      .ok ⟨[], ["Pitch [z] in chord [z] is invalid: missing or invalid note name"], false⟩ ∧
    ∀ (s : String) (r : LilyResult),
      mkLily s = .ok r →
      (∃ c ∈ parseChords s, ∃ e ∈ pySplit (normalizeChord c),
        invalidLetterB e.data = true) →
      r.is_valid = false ∧ r.errors ≠ [] ∧ r.midi = [] := by
  refine ⟨rfl, ?_⟩
  intro s r hok hbad
  obtain ⟨c, hc, e, he, hbadE⟩ := hbad
  simp only [mkLily] at hok
  split at hok
  · next st midi heq =>
    rcases parseLoop_ok _ _ _ heq with ⟨_, hall⟩ | ⟨h1, h2, h3⟩
    · obtain ⟨v, hv⟩ := hall c hc e he
      exact absurd hv (invalidLetter_not_ok hbadE v)
    · injection hok with hok
      subst hok
      exact ⟨h1, h2, h3⟩
  · next _ =>
    exact absurd hok (by simp)

/-- Witness for C4 at the concrete notation `<z>`. -/
theorem invalid_letter_fail_fast_witness :
    (LilyResult.mk []
        ["Pitch [z] in chord [z] is invalid: missing or invalid note name"]
        false).is_valid = false ∧
    (LilyResult.mk []
        ["Pitch [z] in chord [z] is invalid: missing or invalid note name"]
        false).errors ≠ [] ∧
    (LilyResult.mk []
        ["Pitch [z] in chord [z] is invalid: missing or invalid note name"]
        false).midi = [] :=
  invalid_letter_fail_fast.2 "<z>" _ rfl ⟨"z", by decide, "z", by decide, by decide⟩

/-- C5: the single-note chords `<c>`, `<c'>`, `<c,>` resolve to pitches 48,
60 and 36; and in general, appending one raise mark to a valid entry adds
exactly 12 to the resolved pitch and appending one lower mark subtracts
exactly 12, whatever marks are already present. -/
theorem single_note_pitch_and_octave_marks :
    mkLily "<c>" = .ok ⟨[⟨[48], []⟩], [], true⟩ ∧
    mkLily "<c'>" = .ok ⟨[⟨[60], []⟩], [], true⟩ ∧
    mkLily "<c,>" = .ok ⟨[⟨[36], []⟩], [], true⟩ ∧
    ∀ (cn : String) (so : Int) (letter : Char) (marks : List Char) (p : Int),
      letter ∈ noteLetters → (∀ c ∈ marks, allowedCharB c = true) →
      parseEntryE cn so (String.mk (letter :: marks)) = .ok (false, p) →
      parseEntryE cn so (String.mk (letter :: (marks ++ [quoteChar]))) =
        .ok (false, p + 12) ∧
      parseEntryE cn so (String.mk (letter :: (marks ++ [',']))) =
        .ok (false, p - 12) := by
  refine ⟨rfl, rfl, rfl, ?_⟩
  intro cn so letter marks p hl hm hp
  have hbase := parseEntryE_char cn so letter marks hl hm
  have hpv : p =
      (lastDigitD so marks + netUpDown marks) * 12 + notePitch letter +
        ((marks.count 's' : Int) - (marks.count 'f' : Int)) := by
    have := hbase.symm.trans hp
    injection this with this
    injection this with _ this
    exact this.symm
  have hmq : ∀ c ∈ marks ++ [quoteChar], allowedCharB c = true := by
    intro c hcm
    rcases List.mem_append.mp hcm with hcm | hcm
    · exact hm c hcm
    · rcases List.mem_singleton.mp hcm with rfl
      decide
  have hmc : ∀ c ∈ marks ++ [','], allowedCharB c = true := by
    intro c hcm
    rcases List.mem_append.mp hcm with hcm | hcm
    · exact hm c hcm
    · rcases List.mem_singleton.mp hcm with rfl
      decide
  have hq := parseEntryE_char cn so letter (marks ++ [quoteChar]) hl hmq
  have hcm := parseEntryE_char cn so letter (marks ++ [',']) hl hmc
  have e1 : netUpDown [quoteChar] = 1 := by decide
  have e2 : netUpDown [','] = -1 := by decide
  have e3 : List.count 's' [quoteChar] = 0 := by decide
  have e4 : List.count 'f' [quoteChar] = 0 := by decide
  have e5 : List.count 's' [','] = 0 := by decide
  have e6 : List.count 'f' [','] = 0 := by decide
  rw [lastDigitD_append_nondigit marks quoteChar (by decide),
    netUpDown_append, List.count_append, List.count_append, e1, e3, e4] at hq
  rw [lastDigitD_append_nondigit marks ',' (by decide),
    netUpDown_append, List.count_append, List.count_append, e2, e5, e6] at hcm
  constructor
  · rw [hq, hpv]
    simp only [Except.ok.injEq, Prod.mk.injEq]
    refine ⟨trivial, ?_⟩
    push_cast
    ring
  · rw [hcm, hpv]
    simp only [Except.ok.injEq, Prod.mk.injEq]
    refine ⟨trivial, ?_⟩
    push_cast
    ring

/-- Witness for C5's general part at the entry `c` with one raise and one
lower mark appended. -/
theorem single_note_pitch_and_octave_marks_witness :
    parseEntryE "c" 4 (String.mk ('c' :: ([] ++ [quoteChar]))) = .ok (false, 48 + 12) ∧
    parseEntryE "c" 4 (String.mk ('c' :: ([] ++ [',']))) = .ok (false, 48 - 12) :=
  single_note_pitch_and_octave_marks.2.2.2 "c" 4 'c' [] 48 (by decide) (by simp) rfl

/-- C6: on the notation `<c b>` the `src/lab` engine resolves both entries
from the fixed base octave 4 (pitches 48 and 59), while the
`src/harmony/apps/lab` engine drops the `b` an octave by the nearest-fifth
rule (pitches 48 and 47): the two engines are not extensionally equal. -/
theorem lab_harmony_engines_differ :
    mkLily "<c b>" = .ok ⟨[⟨[48, 59], []⟩], [], true⟩ ∧
    Harmony.mkLilyH "<c b>" = .ok ⟨[⟨[48, 47], []⟩], [], true⟩ ∧
    (⟨[48, 59], []⟩ : MidiChord) ≠ (⟨[48, 47], []⟩ : MidiChord) :=
  ⟨rfl, rfl, by decide⟩

/-- C7: the accidental contribution to a resolved pitch is the number of
sharp marks minus the number of flat marks — a function of the mark
multiset only, hence independent of mark order — and concretely `cs`
resolves one semitone above `c` (49) and `cff` two below (46). -/
theorem accidental_contribution :
    (∀ (cn : String) (so : Int) (letter : Char) (marks : List Char),
      letter ∈ noteLetters → (∀ c ∈ marks, allowedCharB c = true) →
      parseEntryE cn so (String.mk (letter :: marks)) =
        .ok (false,
          (lastDigitD so marks + netUpDown marks) * 12 + notePitch letter +
            ((marks.count 's' : Int) - (marks.count 'f' : Int)))) ∧
    (∀ l1 l2 : List Char, l1.Perm l2 →
      ((l1.count 's' : Int) - (l1.count 'f' : Int)) =
        ((l2.count 's' : Int) - (l2.count 'f' : Int))) ∧
    parseEntryE "cs" 4 "cs" = .ok (false, 49) ∧
    parseEntryE "cff" 4 "cff" = .ok (false, 46) :=
  ⟨fun cn so letter marks hl hm => parseEntryE_char cn so letter marks hl hm,
   fun _ _ hperm => by rw [hperm.count_eq, hperm.count_eq],
   rfl, rfl⟩

/-- Witness for C7's general part at the entry `cs`. -/
theorem accidental_contribution_witness :
    parseEntryE "cs" 4 (String.mk ('c' :: ['s'])) =
      .ok (false,
        (lastDigitD 4 ['s'] + netUpDown ['s']) * 12 + notePitch 'c' +
          ((['s'].count 's' : Int) - (['s'].count 'f' : Int))) :=
  accidental_contribution.1 "cs" 4 'c' ['s'] (by decide) (by decide)

/-- C8: the notation `<cq>` produces exactly one error, the
unrecognized-symbols diagnostic naming the residue `q`, with validity
cleared. -/
theorem unrecognized_symbol_single_error :
    mkLily "<cq>" = .ok ⟨[], [unrecognizedMsg "cq" "cq" "q"], false⟩ ∧
    unrecognizedMsg "cq" "cq" "q" =
      "Pitch entry [cq] in chord [cq] contains unrecognized symbols: q" ∧
    [unrecognizedMsg "cq" "cq" "q"].length = 1 :=
  ⟨rfl, rfl, rfl⟩

/-- C9: the empty notation string yields a valid result with no chords and
no errors; more generally any notation string in which the chord extractor
finds no bracketed group does. -/
theorem empty_no_bracket_parse :
    mkLily "" = .ok ⟨[], [], true⟩ ∧
    ∀ s : String, parseChords s = [] → mkLily s = .ok ⟨[], [], true⟩ := by
  refine ⟨rfl, ?_⟩
  intro s h
  unfold mkLily
  rw [h]
  rfl

/-- Witness for C9's general part at the empty notation string. -/
theorem empty_no_bracket_parse_witness : mkLily "" = .ok ⟨[], [], true⟩ :=
  empty_no_bracket_parse.2 "" rfl

/-- C10: each entry-level step of the parse either leaves the error
sequence unchanged or appends one message while clearing validity (errors
are never removed), and whenever a parse completes, `is_valid` holds iff
the error sequence is empty. -/
theorem errors_monotone_valid_iff :
    (∀ (cn : String) (so : Int) (st : LPState) (e : String),
      (entryStep cn so st e).errors = st.errors ∨
        (∃ m, (entryStep cn so st e).errors = st.errors ++ [m] ∧
          (entryStep cn so st e).is_valid = false)) ∧
    ∀ (s : String) (r : LilyResult), mkLily s = .ok r →
      (r.is_valid = true ↔ r.errors = []) := by
  constructor
  · intro cn so st e
    cases hv : parseEntryE cn so e with
    | ok v => left; simp [entryStep, hv]
    | error ex =>
      cases ex with
      | lily m => right; exact ⟨m, by simp [entryStep, hv], by simp [entryStep, hv]⟩
      | index => left; simp [entryStep, hv]
  · intro s r hok
    simp only [mkLily] at hok
    split at hok
    · next st midi heq =>
      injection hok with hok
      subst hok
      rcases parseLoop_ok _ _ _ heq with ⟨hst, _⟩ | ⟨h1, h2, _⟩
      · subst hst
        simp
      · simp [h1, h2]
    · next _ =>
      exact absurd hok (by simp)

/-- Witness for C10's completed-parse part at the empty notation string. -/
theorem errors_monotone_valid_iff_witness :
    ((LilyResult.mk [] [] true).is_valid = true ↔ (LilyResult.mk [] [] true).errors = []) :=
  errors_monotone_valid_iff.2 "" ⟨[], [], true⟩ rfl

end HarmonyLab
